import Mathlib

/-!
Verification development for the `singlecache` package (repository `timesf`),
a singleflight variant whose registry entries carry an expiry timestamp.

The Go source (`timesf.go`) is embedded shallowly:
* `Call` mirrors `struct call` (write-once `val`/`err`, the `forgotten` flag,
  the duplicate counter `dups`, the ordered channel list `chans`, and a `done`
  flag standing for the completed `sync.WaitGroup`).
* `Group` mirrors `struct Group`: the two lazily initialized maps `m`
  (key to the registered call) and `t` (key to the expiry timestamp, Unix
  seconds) are modelled as `Option`-wrapped lookup functions so that the
  nil-map state of a zero `Group` is distinguishable from an empty map;
  call pointers are modelled as indices into an append-only `store`, with
  `next` the next fresh index.  Writing to a nil map is a Go panic and is
  modelled by an `Option` result (`none` = panic).
* Each mutex-protected section of `Do`, `DoChan`, `doCall` and `Forget`
  becomes one atomic transition function (`doEnter`, `doChanEnter`,
  `doCallLocked`, `forget`); the unlocked write of the operation's result
  followed by `wg.Done()` becomes `wgDone`.  Timestamps are `Int` (Go
  `int64` values obtained from `time.Now().Unix()`; the magnitudes reachable
  from the clock and duration division never approach the `int64` range, so
  wrap-around is not modelled).  Channel sends become an explicit ordered
  delivery list.
-/

namespace Singlecache

/-- Result is the value delivered on a DoChan channel: mirrors the Go struct
`Result{Val interface; Err error; Shared bool}`.  A `none` value or error
stands for Go `nil`. -/
structure Result (α ε : Type) where
  val : Option α
  err : Option ε
  shared : Bool
deriving DecidableEq

/-- Call mirrors the Go struct `call`: the write-once result fields, the
forget flag, the duplicate count, the registered result channels (as channel
identifiers, in registration order) and the completion state of the
wait group (`done` = the `wg.Done()` for the single `wg.Add(1)` has run). -/
structure Call (α ε : Type) where
  val : Option α := none
  err : Option ε := none
  forgotten : Bool := false
  dups : Nat := 0
  chans : List Nat := []
  done : Bool := false
deriving DecidableEq

/-- Update of a total lookup function at one key, mirroring `m[key] = v`. -/
def mset {β : Type} (f : String → Option β) (k : String) (v : β) : String → Option β :=
  fun k' => if k' = k then some v else f k'

/-- Removal at one key, mirroring `delete(m, key)` on a non-nil map. -/
def mdel {β : Type} (f : String → Option β) (k : String) : String → Option β :=
  fun k' => if k' = k then none else f k'

/-- Lookup through a possibly-nil map: reading a nil Go map yields the zero
value (absence), so `none` behaves as the everywhere-empty map. -/
def nlookup {β : Type} (m : Option (String → Option β)) (k : String) : Option β :=
  match m with
  | none => none
  | some f => f k

/-- Deletion through a possibly-nil map: `delete` on a nil Go map is a no-op. -/
def ndel {β : Type} (m : Option (String → Option β)) (k : String) :
    Option (String → Option β) :=
  m.map (fun f => mdel f k)

/-- Store update at one call index, mirroring mutation through a `*call`. -/
def supd {α ε : Type} (s : Nat → Call α ε) (i : Nat) (c : Call α ε) : Nat → Call α ε :=
  fun j => if j = i then c else s j

/-- Group mirrors the Go struct `Group`.  `m` and `t` are `none` while the
corresponding Go map is nil (the zero Group).  `store`/`next` model the heap
of `call` records: indices below `next` are the calls allocated so far. -/
structure Group (α ε : Type) where
  m : Option (String → Option Nat)
  t : Option (String → Option Int)
  store : Nat → Call α ε
  next : Nat

/-- Zero value of `Group`: both maps nil, no call allocated. -/
def Group.zero (α ε : Type) : Group α ε :=
  ⟨none, none, fun _ => {}, 0⟩

/-- Sentinel expiry `math.MaxInt64` used for a zero validity duration. -/
def maxInt64 : Int := 9223372036854775807

/-- Translation of `getValidTime`: a zero duration maps to the sentinel
`math.MaxInt64`; a nonzero duration maps to `time.Now().Unix()` (the `now`
argument) plus `int64(validTime / time.Second)`, i.e. the duration in
nanoseconds divided by 10^9 with Go's truncated division (`Int.tdiv`). -/
def getValidTime (validTime now : Int) : Int :=
  if validTime = 0 then maxInt64 else now + validTime.tdiv 1000000000

/-- Outcome of the locked join-or-create section of `Do`/`DoChan`: either the
caller joined the registered call `cid`, or it created the fresh call `cid`. -/
inductive EnterResult where
  | join (cid : Nat)
  | create (cid : Nat)
deriving DecidableEq

/-- Lazy map initialization at the top of `Do`/`DoChan`:
`if g.m == nil { g.m = make(...); g.t = make(...) }`. -/
def initMaps {α ε : Type} (g : Group α ε) : Group α ε :=
  match g.m with
  | none => { g with m := some fun _ => none, t := some fun _ => none }
  | some _ => g

/-- Shared create path of `Do`/`DoChan`: allocate a fresh call record `c`
(`new(call)` resp. `&call{chans: ...}` followed by `wg.Add(1)`), register it
under `key`, and store `getValidTime validTime now` as its expiry.  Writing
to a nil map panics, modelled by `none`. -/
def createCall {α ε : Type} (g : Group α ε) (key : String) (validTime now : Int)
    (c : Call α ε) : Option (Group α ε × EnterResult) :=
  match g.m, g.t with
  | some fm, some ft =>
      some ({ m := some (mset fm key g.next),
              t := some (mset ft key (getValidTime validTime now)),
              store := supd g.store g.next c,
              next := g.next + 1 }, .create g.next)
  | _, _ => none

/-- Locked section of `Do`: after lazy initialization, if `key` is registered
and its stored expiry (`t, _ := g.t[key]`, zero if absent) is strictly greater
than `now`, join by incrementing `dups`; otherwise create a fresh call. -/
def doEnter {α ε : Type} (g0 : Group α ε) (key : String) (validTime now : Int) :
    Option (Group α ε × EnterResult) :=
  let g := initMaps g0
  match nlookup g.m key with
  | some cid =>
      if (nlookup g.t key).getD 0 > now then
        let c := g.store cid
        let c' : Call α ε := { c with dups := c.dups + 1 }
        some ({ g with store := supd g.store cid c' }, .join cid)
      else
        createCall g key validTime now {}
  | none => createCall g key validTime now {}

/-- Locked section of `DoChan` with the fresh buffered channel `ch`: a join
additionally appends `ch` to the call's channel list; a create starts the new
call with channel list `[ch]`. -/
def doChanEnter {α ε : Type} (g0 : Group α ε) (key : String) (validTime now : Int)
    (ch : Nat) : Option (Group α ε × EnterResult) :=
  let g := initMaps g0
  match nlookup g.m key with
  | some cid =>
      if (nlookup g.t key).getD 0 > now then
        let c := g.store cid
        let c' : Call α ε := { c with dups := c.dups + 1, chans := c.chans ++ [ch] }
        some ({ g with store := supd g.store cid c' }, .join cid)
      else
        createCall g key validTime now { chans := [ch] }
  | none => createCall g key validTime now { chans := [ch] }

/-- Unlocked prefix of `doCall`: `c.val, c.err = fn()` followed by
`c.wg.Done()` — the operation's result is finalized and the completion signal
released before the lock is taken.  Only the call record is touched. -/
def wgDone {α ε : Type} (g : Group α ε) (cid : Nat) (v : Option α) (e : Option ε) :
    Group α ε :=
  let c := g.store cid
  let c' : Call α ε := { c with val := v, err := e, done := true }
  { g with store := supd g.store cid c' }

/-- Locked suffix of `doCall`: unless the call was forgotten, delete the
registry entries for `key`; then send `Result{c.val, c.err, c.dups > 0}` on
every channel in `c.chans`, in registration order.  The deliveries are
returned as an explicit ordered list of (channel, Result) pairs. -/
def doCallLocked {α ε : Type} (g : Group α ε) (cid : Nat) (key : String) :
    Group α ε × List (Nat × Result α ε) :=
  let c := g.store cid
  let g' := if c.forgotten then g else { g with m := ndel g.m key, t := ndel g.t key }
  (g', c.chans.map fun ch => (ch, ⟨c.val, c.err, decide (0 < c.dups)⟩))

/-- Whole of `doCall` once the operation has returned `(v, e)`: result write
and completion signal (`wgDone`) followed by the locked eviction/fan-out. -/
def doCall {α ε : Type} (g : Group α ε) (cid : Nat) (key : String)
    (v : Option α) (e : Option ε) : Group α ε × List (Nat × Result α ε) :=
  doCallLocked (wgDone g cid v e) cid key

/-- Instrumented `doCall` that still contains the single call site of the
operation `fn` (the only one in the whole source file): `fn` is run once on
an instrumentation counter and its result is handed to `doCall`. -/
def doCallInstr {α ε : Type} (g : Group α ε) (cid : Nat) (key : String)
    (fn : Nat → (Option α × Option ε) × Nat) (k : Nat) :
    (Group α ε × List (Nat × Result α ε)) × Nat :=
  let r := fn k
  (doCall g cid key r.1.1 r.1.2, r.2)

/-- Translation of `Forget`: mark the registered call for `key` (if any) as
forgotten, then delete both registry entries.  All map writes are deletions,
which are safe on nil maps, so `Forget` is total. -/
def forget {α ε : Type} (g : Group α ε) (key : String) : Group α ε :=
  let g1 := match nlookup g.m key with
    | some cid => { g with store := supd g.store cid { g.store cid with forgotten := true } }
    | none => g
  { g1 with m := ndel g1.m key, t := ndel g1.t key }

/-- Value returned by a joining `Do` caller after `c.wg.Wait()`:
`c.val, c.err, true` read from the call record in the post-completion state. -/
def joinReturn {α ε : Type} (g : Group α ε) (cid : Nat) : Option α × Option ε × Bool :=
  ((g.store cid).val, (g.store cid).err, true)

/-- Value returned by the originating `Do` caller after `doCall`:
`c.val, c.err, c.dups > 0`. -/
def originReturn {α ε : Type} (g : Group α ε) (cid : Nat) : Option α × Option ε × Bool :=
  ((g.store cid).val, (g.store cid).err, decide (0 < (g.store cid).dups))

/-- One atomic transition of the group: any locked section of `Do`, `DoChan`,
`doCall` or `Forget`, or the unlocked result write of `doCall`. -/
inductive Step {α ε : Type} : Group α ε → Group α ε → Prop where
  | enter (g g' : Group α ε) (key : String) (d now : Int) (r : EnterResult) :
      doEnter g key d now = some (g', r) → Step g g'
  | enterChan (g g' : Group α ε) (key : String) (d now : Int) (ch : Nat) (r : EnterResult) :
      doChanEnter g key d now ch = some (g', r) → Step g g'
  | finish (g : Group α ε) (cid : Nat) (v : Option α) (e : Option ε) :
      Step g (wgDone g cid v e)
  | complete (g : Group α ε) (cid : Nat) (key : String) :
      Step g (doCallLocked g cid key).1
  | fgt (g : Group α ε) (key : String) :
      Step g (forget g key)

/-- Concrete one-call group used by witnesses: call 0 registered under key
`"k"` with the sentinel expiry, allocation counter 1. -/
def gOne : Group Unit Unit :=
  ⟨some (mset (fun _ => none) "k" 0), some (mset (fun _ => none) "k" maxInt64),
   supd (fun _ => ⟨none, none, false, 0, [], false⟩) 0 ⟨none, none, false, 0, [], false⟩, 1⟩

/-- State after `Do("k", 1s)` on a zero group at time 0: call 0 registered
with expiry `getValidTime 1000000000 0 = 1`. -/
def c1g1 : Group Unit Unit :=
  ⟨some (mset (fun _ => none) "k" 0),
   some (mset (fun _ => none) "k" (getValidTime 1000000000 0)),
   supd (fun _ => ⟨none, none, false, 0, [], false⟩) 0 ⟨none, none, false, 0, [], false⟩, 1⟩

/-- State after a second `Do("k", 1s)` on `c1g1` at time 5 (the first entry is
expired): call 1 replaces call 0 in the registry while call 0 still runs. -/
def c1g2 : Group Unit Unit :=
  ⟨some (mset (mset (fun _ => none) "k" 0) "k" 1),
   some (mset (mset (fun _ => none) "k" (getValidTime 1000000000 0)) "k"
     (getValidTime 1000000000 5)),
   supd (supd (fun _ => ⟨none, none, false, 0, [], false⟩) 0
     ⟨none, none, false, 0, [], false⟩) 1 ⟨none, none, false, 0, [], false⟩, 2⟩

/-- State after `Do("k", 5ns)` on a zero group at time 0: a sub-second
validity truncates to expiry `getValidTime 5 0`. -/
def wG1 : Group Unit Unit :=
  ⟨some (mset (fun _ => none) "k" 0), some (mset (fun _ => none) "k" (getValidTime 5 0)),
   supd (fun _ => ⟨none, none, false, 0, [], false⟩) 0 ⟨none, none, false, 0, [], false⟩, 1⟩

/-- State after a `Do` join on call `cid`: only the duplicate count changes. -/
def joinUpd {α ε : Type} (g : Group α ε) (cid : Nat) : Group α ε :=
  { g with store := supd g.store cid { g.store cid with dups := (g.store cid).dups + 1 } }

/-- State after a `DoChan` join on call `cid` with channel `ch`: the duplicate
count is incremented and `ch` is appended to the channel list. -/
def joinChanUpd {α ε : Type} (g : Group α ε) (cid ch : Nat) : Group α ε :=
  let c := g.store cid
  let c' : Call α ε := { c with dups := c.dups + 1, chans := c.chans ++ [ch] }
  { g with store := supd g.store cid c' }

/-! Basic lemmas about the map and store helpers. -/

@[simp]
theorem mset_self {β : Type} (f : String → Option β) (k : String) (v : β) :
    mset f k v k = some v := by
  simp [mset]

theorem mset_ne {β : Type} (f : String → Option β) {k k' : String} (v : β) (h : k' ≠ k) :
    mset f k v k' = f k' := by
  simp [mset, h]

@[simp]
theorem mdel_self {β : Type} (f : String → Option β) (k : String) : mdel f k k = none := by
  simp [mdel]

theorem mdel_ne {β : Type} (f : String → Option β) {k k' : String} (h : k' ≠ k) :
    mdel f k k' = f k' := by
  simp [mdel, h]

@[simp]
theorem supd_self {α ε : Type} (s : Nat → Call α ε) (i : Nat) (c : Call α ε) :
    supd s i c i = c := by
  simp [supd]

theorem supd_ne {α ε : Type} (s : Nat → Call α ε) {i j : Nat} (c : Call α ε) (h : j ≠ i) :
    supd s i c j = s j := by
  simp [supd, h]

@[simp]
theorem nlookup_none {β : Type} (k : String) :
    nlookup (none : Option (String → Option β)) k = none := rfl

@[simp]
theorem nlookup_some {β : Type} (f : String → Option β) (k : String) :
    nlookup (some f) k = f k := rfl

@[simp]
theorem nlookup_ndel_self {β : Type} (m : Option (String → Option β)) (k : String) :
    nlookup (ndel m k) k = none := by
  cases m <;> simp [ndel, nlookup]

theorem nlookup_ndel_ne {β : Type} (m : Option (String → Option β)) {k k' : String}
    (h : k' ≠ k) : nlookup (ndel m k) k' = nlookup m k' := by
  cases m <;> simp [ndel, nlookup, mdel_ne _ h]

@[simp]
theorem ndel_isSome {β : Type} (m : Option (String → Option β)) (k : String) :
    (ndel m k).isSome = m.isSome := by
  cases m <;> simp [ndel]

/-! Lemmas about lazy initialization. -/

@[simp]
theorem initMaps_store {α ε : Type} (g : Group α ε) : (initMaps g).store = g.store := by
  obtain ⟨m, t, s, n⟩ := g; cases m <;> rfl

@[simp]
theorem initMaps_next {α ε : Type} (g : Group α ε) : (initMaps g).next = g.next := by
  obtain ⟨m, t, s, n⟩ := g; cases m <;> rfl

@[simp]
theorem initMaps_nlookup_m {α ε : Type} (g : Group α ε) (k : String) :
    nlookup (initMaps g).m k = nlookup g.m k := by
  obtain ⟨m, t, s, n⟩ := g; cases m <;> rfl

@[simp]
theorem initMaps_m_isSome {α ε : Type} (g : Group α ε) : (initMaps g).m.isSome = true := by
  obtain ⟨m, t, s, n⟩ := g; cases m <;> rfl

theorem initMaps_of_isSome {α ε : Type} {g : Group α ε} (h : g.m.isSome) :
    initMaps g = g := by
  obtain ⟨m, t, s, n⟩ := g
  cases m with
  | none => simp at h
  | some fm => rfl

theorem initMaps_t_isSome {α ε : Type} {g : Group α ε} (h : g.m.isSome → g.t.isSome) :
    (initMaps g).t.isSome = true := by
  obtain ⟨m, t, s, n⟩ := g
  cases m with
  | none => rfl
  | some fm => simpa using h (by simp)

/-! Inversion and evaluation lemmas for the create path. -/

theorem createCall_eq {α ε : Type} (fm : String → Option Nat) (ft : String → Option Int)
    (s : Nat → Call α ε) (n : Nat) (key : String) (d now : Int) (c : Call α ε) :
    createCall ⟨some fm, some ft, s, n⟩ key d now c =
      some (⟨some (mset fm key n), some (mset ft key (getValidTime d now)),
             supd s n c, n + 1⟩, .create n) := rfl

theorem createCall_some {α ε : Type} {g g' : Group α ε} {key : String} {d now : Int}
    {c : Call α ε} {r : EnterResult}
    (h : createCall g key d now c = some (g', r)) :
    r = .create g.next ∧ g'.next = g.next + 1 ∧ g'.store = supd g.store g.next c ∧
      g'.m.isSome = true ∧ g'.t.isSome = true ∧
      nlookup g'.m key = some g.next ∧
      nlookup g'.t key = some (getValidTime d now) ∧
      (∀ k, k ≠ key → nlookup g'.m k = nlookup g.m k ∧ nlookup g'.t k = nlookup g.t k) := by
  obtain ⟨m, t, s, n⟩ := g
  cases m with
  | none => simp [createCall] at h
  | some fm =>
    cases t with
    | none => simp [createCall] at h
    | some ft =>
      rw [createCall_eq] at h
      injection h with h'
      injection h' with hg hr
      subst hg
      subst hr
      refine ⟨rfl, rfl, rfl, rfl, rfl, by simp, by simp, ?_⟩
      intro k hk
      exact ⟨by simp [mset_ne _ _ hk], by simp [mset_ne _ _ hk]⟩

theorem createCall_total {α ε : Type} {g : Group α ε} (key : String) (d now : Int)
    (c : Call α ε) (hm : g.m.isSome = true) (ht : g.t.isSome = true) :
    ∃ g', createCall g key d now c = some (g', .create g.next) := by
  obtain ⟨m, t, s, n⟩ := g
  cases m with
  | none => simp at hm
  | some fm =>
    cases t with
    | none => simp at ht
    | some ft => exact ⟨_, createCall_eq fm ft s n key d now c⟩

theorem doEnter_join_eq {α ε : Type} {g : Group α ε} {key : String} {cid : Nat}
    (d now : Int) (hm : nlookup g.m key = some cid)
    (ht : (nlookup g.t key).getD 0 > now) :
    doEnter g key d now = some (joinUpd g cid, .join cid) := by
  have hms : g.m.isSome = true := by
    cases hgm : g.m
    · rw [hgm] at hm; simp at hm
    · simp
  simp only [doEnter]
  rw [initMaps_of_isSome hms, hm]
  dsimp only
  rw [if_pos ht]
  rfl

theorem doEnter_join_inv {α ε : Type} {g g' : Group α ε} {key : String} {d now : Int}
    {cid : Nat} (h : doEnter g key d now = some (g', .join cid)) :
    nlookup g.m key = some cid ∧ (nlookup g.t key).getD 0 > now ∧ g' = joinUpd g cid := by
  by_cases hms : g.m.isSome = true
  case neg =>
    have hmn : g.m = none := Option.not_isSome_iff_eq_none.mp (by simpa using hms)
    exfalso
    simp only [doEnter] at h
    rw [show nlookup (initMaps g).m key = none from by simp [hmn]] at h
    obtain ⟨hr, -⟩ := createCall_some h
    simp at hr
  case pos =>
    simp only [doEnter] at h
    rw [initMaps_of_isSome hms] at h
    rcases hsc : nlookup g.m key with _ | cid0
    · rw [hsc] at h
      obtain ⟨hr, -⟩ := createCall_some h
      simp at hr
    · rw [hsc] at h
      dsimp only at h
      by_cases ht : (nlookup g.t key).getD 0 > now
      · rw [if_pos ht] at h
        injection h with h'
        injection h' with hg hr
        injection hr with hcid
        subst hcid
        subst hg
        exact ⟨rfl, ht, rfl⟩
      · rw [if_neg ht] at h
        obtain ⟨hr, -⟩ := createCall_some h
        simp at hr

theorem doEnter_create_inv {α ε : Type} {g g' : Group α ε} {key : String} {d now : Int}
    {cid : Nat} (h : doEnter g key d now = some (g', .create cid)) :
    cid = g.next ∧ g'.next = g.next + 1 ∧ g'.store = supd g.store g.next {} ∧
      g'.m.isSome = true ∧ g'.t.isSome = true ∧
      nlookup g'.m key = some g.next ∧
      nlookup g'.t key = some (getValidTime d now) ∧
      (∀ k, k ≠ key → nlookup g'.m k = nlookup g.m k) ∧
      (g.m.isSome = true ∨ g.t.isNone = true →
        ∀ k, k ≠ key → nlookup g'.t k = nlookup g.t k) ∧
      (∀ cid0, nlookup g.m key = some cid0 → ¬((nlookup g.t key).getD 0 > now)) := by
  by_cases hms : g.m.isSome = true
  case neg =>
    have hmn : g.m = none := Option.not_isSome_iff_eq_none.mp (by simpa using hms)
    simp only [doEnter] at h
    rw [show nlookup (initMaps g).m key = none from by simp [hmn]] at h
    obtain ⟨hr, hnext, hstore, hm2, ht2, hkm, hkt, hother⟩ := createCall_some h
    injection hr with hcid
    rw [initMaps_next] at hcid hnext hstore hkm
    rw [initMaps_store] at hstore
    refine ⟨hcid, hnext, hstore, hm2, ht2, hkm, hkt, ?_, ?_, ?_⟩
    · intro k hk
      rw [(hother k hk).1, initMaps_nlookup_m]
    · rintro (hs | hn)
      · rw [hmn] at hs; simp at hs
      · intro k hk
        rw [(hother k hk).2]
        have htn : g.t = none := Option.isNone_iff_eq_none.mp hn
        simp [initMaps, hmn, htn]
    · intro cid0 h0
      rw [hmn] at h0
      simp at h0
  case pos =>
    simp only [doEnter] at h
    rw [initMaps_of_isSome hms] at h
    rcases hsc : nlookup g.m key with _ | cid0
    · rw [hsc] at h
      obtain ⟨hr, hnext, hstore, hm2, ht2, hkm, hkt, hother⟩ := createCall_some h
      injection hr with hcid
      exact ⟨hcid, hnext, hstore, hm2, ht2, hkm, hkt,
        fun k hk => (hother k hk).1, fun _ k hk => (hother k hk).2,
        fun cid0 h0 => by simp at h0⟩
    · rw [hsc] at h
      dsimp only at h
      by_cases ht : (nlookup g.t key).getD 0 > now
      · rw [if_pos ht] at h
        injection h with h'
        injection h' with hg hr
        exact EnterResult.noConfusion hr
      · rw [if_neg ht] at h
        obtain ⟨hr, hnext, hstore, hm2, ht2, hkm, hkt, hother⟩ := createCall_some h
        injection hr with hcid
        exact ⟨hcid, hnext, hstore, hm2, ht2, hkm, hkt,
          fun k hk => (hother k hk).1, fun _ k hk => (hother k hk).2,
          fun cid1 _ => ht⟩

theorem doEnter_total {α ε : Type} (g : Group α ε) (key : String) (d now : Int)
    (hwf : g.m.isSome = true → g.t.isSome = true) :
    ∃ p, doEnter g key d now = some p := by
  by_cases hm : nlookup g.m key = none
  · have hms : (initMaps g).m.isSome = true := initMaps_m_isSome g
    have hts : (initMaps g).t.isSome = true := initMaps_t_isSome hwf
    obtain ⟨g', hg'⟩ := createCall_total key d now {} hms hts
    refine ⟨(g', .create (initMaps g).next), ?_⟩
    simp only [doEnter]
    rw [show nlookup (initMaps g).m key = none from by simpa using hm]
    exact hg'
  · obtain ⟨cid, hcid⟩ := Option.ne_none_iff_exists'.mp hm
    by_cases ht : (nlookup g.t key).getD 0 > now
    · exact ⟨_, doEnter_join_eq d now hcid ht⟩
    · have hms : g.m.isSome = true := by
        cases hgm : g.m
        · rw [hgm] at hcid; simp at hcid
        · simp
      obtain ⟨g', hg'⟩ := createCall_total (g := g) key d now {} hms (hwf hms)
      refine ⟨(g', .create g.next), ?_⟩
      simp only [doEnter]
      rw [initMaps_of_isSome hms, hcid]
      dsimp only
      rw [if_neg ht]
      exact hg'

theorem doChanEnter_join_eq {α ε : Type} {g : Group α ε} {key : String} {cid : Nat}
    (d now : Int) (ch : Nat) (hm : nlookup g.m key = some cid)
    (ht : (nlookup g.t key).getD 0 > now) :
    doChanEnter g key d now ch = some (joinChanUpd g cid ch, .join cid) := by
  have hms : g.m.isSome = true := by
    cases hgm : g.m
    · rw [hgm] at hm; simp at hm
    · simp
  simp only [doChanEnter]
  rw [initMaps_of_isSome hms, hm]
  dsimp only
  rw [if_pos ht]
  rfl

theorem doChanEnter_join_inv {α ε : Type} {g g' : Group α ε} {key : String} {d now : Int}
    {ch cid : Nat} (h : doChanEnter g key d now ch = some (g', .join cid)) :
    nlookup g.m key = some cid ∧ (nlookup g.t key).getD 0 > now ∧
      g' = joinChanUpd g cid ch := by
  by_cases hms : g.m.isSome = true
  case neg =>
    have hmn : g.m = none := Option.not_isSome_iff_eq_none.mp (by simpa using hms)
    exfalso
    simp only [doChanEnter] at h
    rw [show nlookup (initMaps g).m key = none from by simp [hmn]] at h
    obtain ⟨hr, -⟩ := createCall_some h
    simp at hr
  case pos =>
    simp only [doChanEnter] at h
    rw [initMaps_of_isSome hms] at h
    rcases hsc : nlookup g.m key with _ | cid0
    · rw [hsc] at h
      obtain ⟨hr, -⟩ := createCall_some h
      simp at hr
    · rw [hsc] at h
      dsimp only at h
      by_cases ht : (nlookup g.t key).getD 0 > now
      · rw [if_pos ht] at h
        injection h with h'
        injection h' with hg hr
        injection hr with hcid
        subst hcid
        subst hg
        exact ⟨rfl, ht, rfl⟩
      · rw [if_neg ht] at h
        obtain ⟨hr, -⟩ := createCall_some h
        simp at hr

theorem doChanEnter_create_inv {α ε : Type} {g g' : Group α ε} {key : String}
    {d now : Int} {ch cid : Nat}
    (h : doChanEnter g key d now ch = some (g', .create cid)) :
    cid = g.next ∧ g'.next = g.next + 1 ∧
      g'.store = supd g.store g.next { chans := [ch] } ∧
      g'.m.isSome = true ∧ g'.t.isSome = true ∧
      nlookup g'.m key = some g.next ∧
      nlookup g'.t key = some (getValidTime d now) ∧
      (∀ k, k ≠ key → nlookup g'.m k = nlookup g.m k) ∧
      (∀ cid0, nlookup g.m key = some cid0 → ¬((nlookup g.t key).getD 0 > now)) := by
  by_cases hms : g.m.isSome = true
  case neg =>
    have hmn : g.m = none := Option.not_isSome_iff_eq_none.mp (by simpa using hms)
    simp only [doChanEnter] at h
    rw [show nlookup (initMaps g).m key = none from by simp [hmn]] at h
    obtain ⟨hr, hnext, hstore, hm2, ht2, hkm, hkt, hother⟩ := createCall_some h
    injection hr with hcid
    rw [initMaps_next] at hcid hnext hstore hkm
    rw [initMaps_store] at hstore
    refine ⟨hcid, hnext, hstore, hm2, ht2, hkm, hkt, ?_, ?_⟩
    · intro k hk
      rw [(hother k hk).1, initMaps_nlookup_m]
    · intro cid0 h0
      rw [hmn] at h0
      simp at h0
  case pos =>
    simp only [doChanEnter] at h
    rw [initMaps_of_isSome hms] at h
    rcases hsc : nlookup g.m key with _ | cid0
    · rw [hsc] at h
      obtain ⟨hr, hnext, hstore, hm2, ht2, hkm, hkt, hother⟩ := createCall_some h
      injection hr with hcid
      exact ⟨hcid, hnext, hstore, hm2, ht2, hkm, hkt,
        fun k hk => (hother k hk).1, fun cid0 h0 => by simp at h0⟩
    · rw [hsc] at h
      dsimp only at h
      by_cases ht : (nlookup g.t key).getD 0 > now
      · rw [if_pos ht] at h
        injection h with h'
        injection h' with hg hr
        exact EnterResult.noConfusion hr
      · rw [if_neg ht] at h
        obtain ⟨hr, hnext, hstore, hm2, ht2, hkm, hkt, hother⟩ := createCall_some h
        injection hr with hcid
        exact ⟨hcid, hnext, hstore, hm2, ht2, hkm, hkt,
          fun k hk => (hother k hk).1, fun cid1 _ => ht⟩

theorem doChanEnter_total {α ε : Type} (g : Group α ε) (key : String) (d now : Int)
    (ch : Nat) (hwf : g.m.isSome = true → g.t.isSome = true) :
    ∃ p, doChanEnter g key d now ch = some p := by
  by_cases hm : nlookup g.m key = none
  · have hms : (initMaps g).m.isSome = true := initMaps_m_isSome g
    have hts : (initMaps g).t.isSome = true := initMaps_t_isSome hwf
    obtain ⟨g', hg'⟩ := createCall_total key d now { chans := [ch] } hms hts
    refine ⟨(g', .create (initMaps g).next), ?_⟩
    simp only [doChanEnter]
    rw [show nlookup (initMaps g).m key = none from by simpa using hm]
    exact hg'
  · obtain ⟨cid, hcid⟩ := Option.ne_none_iff_exists'.mp hm
    by_cases ht : (nlookup g.t key).getD 0 > now
    · exact ⟨_, doChanEnter_join_eq d now ch hcid ht⟩
    · have hms : g.m.isSome = true := by
        cases hgm : g.m
        · rw [hgm] at hcid; simp at hcid
        · simp
      obtain ⟨g', hg'⟩ := createCall_total (g := g) key d now { chans := [ch] } hms (hwf hms)
      refine ⟨(g', .create g.next), ?_⟩
      simp only [doChanEnter]
      rw [initMaps_of_isSome hms, hcid]
      dsimp only
      rw [if_neg ht]
      exact hg'

/-! Lemmas about the completion path. -/

@[simp]
theorem wgDone_m {α ε : Type} (g : Group α ε) (cid : Nat) (v : Option α) (e : Option ε) :
    (wgDone g cid v e).m = g.m := rfl

@[simp]
theorem wgDone_t {α ε : Type} (g : Group α ε) (cid : Nat) (v : Option α) (e : Option ε) :
    (wgDone g cid v e).t = g.t := rfl

@[simp]
theorem wgDone_next {α ε : Type} (g : Group α ε) (cid : Nat) (v : Option α) (e : Option ε) :
    (wgDone g cid v e).next = g.next := rfl

@[simp]
theorem wgDone_store_self {α ε : Type} (g : Group α ε) (cid : Nat) (v : Option α)
    (e : Option ε) :
    (wgDone g cid v e).store cid = { g.store cid with val := v, err := e, done := true } := by
  simp [wgDone]

theorem wgDone_store_ne {α ε : Type} (g : Group α ε) {cid j : Nat} (v : Option α)
    (e : Option ε) (h : j ≠ cid) : (wgDone g cid v e).store j = g.store j := by
  simp [wgDone, supd_ne _ _ h]

@[simp]
theorem doCallLocked_store {α ε : Type} (g : Group α ε) (cid : Nat) (key : String) :
    (doCallLocked g cid key).1.store = g.store := by
  simp only [doCallLocked]
  cases (g.store cid).forgotten <;> simp

@[simp]
theorem doCallLocked_next {α ε : Type} (g : Group α ε) (cid : Nat) (key : String) :
    (doCallLocked g cid key).1.next = g.next := by
  simp only [doCallLocked]
  cases (g.store cid).forgotten <;> simp

@[simp]
theorem doCallLocked_snd {α ε : Type} (g : Group α ε) (cid : Nat) (key : String) :
    (doCallLocked g cid key).2 = (g.store cid).chans.map
      (fun ch => (ch, ⟨(g.store cid).val, (g.store cid).err,
        decide (0 < (g.store cid).dups)⟩)) := rfl

theorem doCallLocked_fst_forgotten {α ε : Type} (g : Group α ε) (cid : Nat) (key : String)
    (h : (g.store cid).forgotten = true) : (doCallLocked g cid key).1 = g := by
  simp [doCallLocked, h]

theorem doCallLocked_fst_not_forgotten {α ε : Type} (g : Group α ε) (cid : Nat)
    (key : String) (h : (g.store cid).forgotten = false) :
    (doCallLocked g cid key).1 = { g with m := ndel g.m key, t := ndel g.t key } := by
  simp [doCallLocked, h]

/-! Lemmas about `forget`. -/

@[simp]
theorem forget_nlookup_m_self {α ε : Type} (g : Group α ε) (key : String) :
    nlookup (forget g key).m key = none := by
  simp only [forget]
  cases nlookup g.m key <;> simp

@[simp]
theorem forget_nlookup_t_self {α ε : Type} (g : Group α ε) (key : String) :
    nlookup (forget g key).t key = none := by
  simp only [forget]
  cases nlookup g.m key <;> simp

theorem forget_nlookup_m_ne {α ε : Type} (g : Group α ε) {key k : String} (h : k ≠ key) :
    nlookup (forget g key).m k = nlookup g.m k := by
  simp only [forget]
  cases nlookup g.m key <;> simp [nlookup_ndel_ne _ h]

theorem forget_nlookup_t_ne {α ε : Type} (g : Group α ε) {key k : String} (h : k ≠ key) :
    nlookup (forget g key).t k = nlookup g.t k := by
  simp only [forget]
  cases nlookup g.m key <;> simp [nlookup_ndel_ne _ h]

@[simp]
theorem forget_next {α ε : Type} (g : Group α ε) (key : String) :
    (forget g key).next = g.next := by
  simp only [forget]
  cases nlookup g.m key <;> simp

@[simp]
theorem forget_m_isSome {α ε : Type} (g : Group α ε) (key : String) :
    (forget g key).m.isSome = g.m.isSome := by
  simp only [forget]
  cases nlookup g.m key <;> simp

@[simp]
theorem forget_t_isSome {α ε : Type} (g : Group α ε) (key : String) :
    (forget g key).t.isSome = g.t.isSome := by
  simp only [forget]
  cases nlookup g.m key <;> simp

theorem forget_store_of_reg {α ε : Type} {g : Group α ε} {key : String} {cid : Nat}
    (h : nlookup g.m key = some cid) :
    (forget g key).store = supd g.store cid { g.store cid with forgotten := true } := by
  simp only [forget, h]

theorem forget_store_of_absent {α ε : Type} {g : Group α ε} {key : String}
    (h : nlookup g.m key = none) : (forget g key).store = g.store := by
  simp only [forget, h]

/-! Step invariants: the call allocation counter never decreases, a call's
duplicate count never decreases, and the forgotten flag is sticky (for calls
that have actually been allocated, i.e. whose index is below `next`). -/

theorem Step.next_mono {α ε : Type} {g g' : Group α ε} (h : Step g g') :
    g.next ≤ g'.next := by
  cases h with
  | enter g' key d now r heq =>
    cases r with
    | join cid =>
      obtain ⟨-, -, rfl⟩ := doEnter_join_inv heq
      exact le_refl _
    | create cid =>
      obtain ⟨-, hnext, -⟩ := doEnter_create_inv heq
      omega
  | enterChan g' key d now ch r heq =>
    cases r with
    | join cid =>
      obtain ⟨-, -, rfl⟩ := doChanEnter_join_inv heq
      exact le_refl _
    | create cid =>
      obtain ⟨-, hnext, -⟩ := doChanEnter_create_inv heq
      omega
  | finish cid v e => simp
  | complete cid key => simp
  | fgt key => simp

theorem Step.dups_mono {α ε : Type} {g g' : Group α ε} (h : Step g g') {cid : Nat}
    (hcid : cid < g.next) : (g.store cid).dups ≤ (g'.store cid).dups := by
  cases h with
  | enter g' key d now r heq =>
    cases r with
    | join cid0 =>
      obtain ⟨-, -, rfl⟩ := doEnter_join_inv heq
      by_cases hc : cid = cid0
      · subst hc; simp [joinUpd]
      · simp [joinUpd, supd_ne _ _ hc]
    | create cid0 =>
      obtain ⟨-, -, hstore, -⟩ := doEnter_create_inv heq
      rw [hstore, supd_ne _ _ (by omega)]
  | enterChan g' key d now ch r heq =>
    cases r with
    | join cid0 =>
      obtain ⟨-, -, rfl⟩ := doChanEnter_join_inv heq
      by_cases hc : cid = cid0
      · subst hc; simp [joinChanUpd]
      · simp [joinChanUpd, supd_ne _ _ hc]
    | create cid0 =>
      obtain ⟨-, -, hstore, -⟩ := doChanEnter_create_inv heq
      rw [hstore, supd_ne _ _ (by omega)]
  | finish cid0 v e =>
    by_cases hc : cid = cid0
    · subst hc; simp
    · rw [wgDone_store_ne _ _ _ hc]
  | complete cid0 key => simp
  | fgt key =>
    rcases hsc : nlookup g.m key with _ | cid0
    · rw [forget_store_of_absent hsc]
    · rw [forget_store_of_reg hsc]
      by_cases hc : cid = cid0
      · subst hc; simp
      · rw [supd_ne _ _ hc]

theorem Step.forgotten_sticky {α ε : Type} {g g' : Group α ε} (h : Step g g') {cid : Nat}
    (hcid : cid < g.next) (hf : (g.store cid).forgotten = true) :
    (g'.store cid).forgotten = true := by
  cases h with
  | enter g' key d now r heq =>
    cases r with
    | join cid0 =>
      obtain ⟨-, -, rfl⟩ := doEnter_join_inv heq
      by_cases hc : cid = cid0
      · subst hc; simpa [joinUpd] using hf
      · simpa [joinUpd, supd_ne _ _ hc] using hf
    | create cid0 =>
      obtain ⟨-, -, hstore, -⟩ := doEnter_create_inv heq
      rw [hstore, supd_ne _ _ (by omega)]
      exact hf
  | enterChan g' key d now ch r heq =>
    cases r with
    | join cid0 =>
      obtain ⟨-, -, rfl⟩ := doChanEnter_join_inv heq
      by_cases hc : cid = cid0
      · subst hc; simpa [joinChanUpd] using hf
      · simpa [joinChanUpd, supd_ne _ _ hc] using hf
    | create cid0 =>
      obtain ⟨-, -, hstore, -⟩ := doChanEnter_create_inv heq
      rw [hstore, supd_ne _ _ (by omega)]
      exact hf
  | finish cid0 v e =>
    by_cases hc : cid = cid0
    · subst hc; simpa using hf
    · rw [wgDone_store_ne _ _ _ hc]; exact hf
  | complete cid0 key => simpa using hf
  | fgt key =>
    rcases hsc : nlookup g.m key with _ | cid0
    · rw [forget_store_of_absent hsc]; exact hf
    · rw [forget_store_of_reg hsc]
      by_cases hc : cid = cid0
      · subst hc; simp
      · rw [supd_ne _ _ hc]; exact hf

theorem steps_forgotten_sticky {α ε : Type} {g g' : Group α ε}
    (h : Relation.ReflTransGen Step g g') {cid : Nat} (hcid : cid < g.next)
    (hf : (g.store cid).forgotten = true) :
    cid < g'.next ∧ (g'.store cid).forgotten = true := by
  induction h with
  | refl => exact ⟨hcid, hf⟩
  | tail hab hbc ih =>
    obtain ⟨h1, h2⟩ := ih
    exact ⟨lt_of_lt_of_le h1 hbc.next_mono, hbc.forgotten_sticky h1 h2⟩

theorem steps_dups_mono {α ε : Type} {g g' : Group α ε}
    (h : Relation.ReflTransGen Step g g') {cid : Nat} (hcid : cid < g.next) :
    cid < g'.next ∧ (g.store cid).dups ≤ (g'.store cid).dups := by
  induction h with
  | refl => exact ⟨hcid, le_refl _⟩
  | tail hab hbc ih =>
    obtain ⟨h1, h2⟩ := ih
    exact ⟨lt_of_lt_of_le h1 hbc.next_mono, le_trans h2 (hbc.dups_mono h1)⟩

/-! Claim theorems. -/

/-- C6: the Validity Clock maps a zero validity duration to the sentinel
expiry `math.MaxInt64`, under which the join test `expiry > now` holds at
every instant below the sentinel (the call never becomes unjoinable due to
elapsed time), and maps a nonzero duration to the current time plus the
duration truncated to whole seconds. -/
theorem C6_validity_clock (d now : Int) (hd : d ≠ 0) :
    getValidTime 0 now = maxInt64 ∧
    getValidTime d now = now + d.tdiv 1000000000 ∧
    (∀ now2 : Int, now2 < maxInt64 → getValidTime 0 now > now2) := by
  refine ⟨by simp [getValidTime], by simp [getValidTime, hd], ?_⟩
  intro now2 h2
  simpa [getValidTime] using h2

/-- Witness for C6 at duration 9s and time 100. -/
theorem C6_validity_clock_witness :
    getValidTime 0 100 = maxInt64 ∧
    getValidTime 9000000000 100 = 100 + (9000000000 : Int).tdiv 1000000000 ∧
    (∀ now2 : Int, now2 < maxInt64 → getValidTime 0 100 > now2) :=
  C6_validity_clock 9000000000 100 (by decide)

/-- C10: a nonzero validity duration strictly below one second truncates to
zero whole seconds, so the stored expiry equals the creation time `now`; the
join condition `expiry > now2` is then false for every `now2 ≥ now`, so every
subsequent `Do` or `DoChan` for the key originates a fresh call. -/
theorem C10_subsecond_validity_never_joins {α ε : Type} (g g1 : Group α ε)
    (key : String) (d now : Int) (cid : Nat)
    (hd0 : 0 < d) (hd1 : d < 1000000000)
    (hcr : doEnter g key d now = some (g1, .create cid)) :
    nlookup g1.t key = some now ∧
    (∀ d2 now2, now ≤ now2 →
      ∃ g2, doEnter g1 key d2 now2 = some (g2, .create g1.next)) ∧
    (∀ d2 now2 ch, now ≤ now2 →
      ∃ g2, doChanEnter g1 key d2 now2 ch = some (g2, .create g1.next)) := by
  obtain ⟨hcid, hnext, hstore, hm2, ht2, hkm, hkt, hothm, hotht, hjc⟩ := doEnter_create_inv hcr
  have hdz : d ≠ 0 := by omega
  have hdiv : d.tdiv 1000000000 = 0 := Int.tdiv_eq_zero_of_lt hd0.le hd1
  have hval : getValidTime d now = now := by
    simp [getValidTime, hdz, hdiv]
  rw [hval] at hkt
  refine ⟨hkt, ?_, ?_⟩
  · intro d2 now2 hle
    obtain ⟨g2, hg2⟩ := createCall_total (g := g1) key d2 now2 ⟨none, none, false, 0, [], false⟩ hm2 ht2
    refine ⟨g2, ?_⟩
    simp only [doEnter]
    rw [initMaps_of_isSome hm2, hkm]
    dsimp only
    rw [hkt]
    simp only [Option.getD_some]
    rw [if_neg (by omega : ¬ now > now2)]
    exact hg2
  · intro d2 now2 ch hle
    obtain ⟨g2, hg2⟩ := createCall_total (g := g1) key d2 now2 ⟨none, none, false, 0, [ch], false⟩ hm2 ht2
    refine ⟨g2, ?_⟩
    simp only [doChanEnter]
    rw [initMaps_of_isSome hm2, hkm]
    dsimp only
    rw [hkt]
    simp only [Option.getD_some]
    rw [if_neg (by omega : ¬ now > now2)]
    exact hg2

/-- Witness for C10: creating with a 5ns validity at time 0 stores expiry 0,
and a later caller at time 3 creates afresh instead of joining. -/
theorem C10_subsecond_validity_never_joins_witness :
    nlookup wG1.t "k" = some 0 ∧
    (∃ g2, doEnter wG1 "k" 9 3 = some (g2, .create wG1.next)) := by
  obtain ⟨h1, h2, -⟩ := C10_subsecond_validity_never_joins (Group.zero Unit Unit) wG1
    "k" 5 0 0 (by decide) (by decide) rfl
  exact ⟨h1, h2 9 3 (by decide)⟩

/-- C1 exhibit (code defect): `doCall` evicts the registry entry for its key
whenever the completing call was not forgotten, without checking that the
entry still refers to the completing call.  Concretely: call 0 is created for
key `"k"` at time 0 with a 1s validity; at time 5 the entry is expired, so a
second `Do` installs call 1 under `"k"`; when call 0 then completes (not
forgotten), it deletes the registry entry of the still-running call 1. -/
theorem C1_stale_completion_evicts_newer_call :
    doEnter (Group.zero Unit Unit) "k" 1000000000 0 = some (c1g1, .create 0) ∧
    doEnter c1g1 "k" 1000000000 5 = some (c1g2, .create 1) ∧
    nlookup c1g2.m "k" = some 1 ∧
    (c1g2.store 1).done = false ∧
    (c1g2.store 0).forgotten = false ∧
    nlookup (doCall c1g2 0 "k" none none).1.m "k" = none ∧
    nlookup (doCall c1g2 0 "k" none none).1.t "k" = none := by
  refine ⟨rfl, ?_, by decide, by decide, by decide, ?_, ?_⟩
  · rfl
  · decide
  · decide

/-- C3: under the lock, `Do` and `DoChan` join exactly when the key is
registered and its stored expiry is strictly greater than the current time —
incrementing the existing call's duplicate count (and, for `DoChan`,
appending the caller's channel) without running the operation — and in every
other case create a fresh call that unconditionally replaces any prior entry
for the key and stores a fresh expiry computed by `getValidTime`. -/
theorem C3_join_or_create_decision {α ε : Type} (g : Group α ε) (key : String)
    (d now : Int) (hwf : g.m.isSome = true → g.t.isSome = true) :
    (∀ cid, nlookup g.m key = some cid → (nlookup g.t key).getD 0 > now →
      doEnter g key d now = some (joinUpd g cid, .join cid) ∧
      ((joinUpd g cid).store cid).dups = (g.store cid).dups + 1 ∧
      (∀ ch, doChanEnter g key d now ch = some (joinChanUpd g cid ch, .join cid) ∧
        ((joinChanUpd g cid ch).store cid).chans = (g.store cid).chans ++ [ch])) ∧
    (¬(∃ cid, nlookup g.m key = some cid ∧ (nlookup g.t key).getD 0 > now) →
      (∃ g', doEnter g key d now = some (g', .create g.next) ∧
        nlookup g'.m key = some g.next ∧
        nlookup g'.t key = some (getValidTime d now) ∧
        g'.store g.next = ⟨none, none, false, 0, [], false⟩ ∧
        g'.next = g.next + 1 ∧
        (∀ k, k ≠ key → nlookup g'.m k = nlookup g.m k)) ∧
      (∀ ch, ∃ g', doChanEnter g key d now ch = some (g', .create g.next) ∧
        nlookup g'.m key = some g.next ∧
        nlookup g'.t key = some (getValidTime d now) ∧
        g'.store g.next = ⟨none, none, false, 0, [ch], false⟩ ∧
        g'.next = g.next + 1)) := by
  constructor
  · intro cid hm ht
    refine ⟨doEnter_join_eq d now hm ht, by simp [joinUpd], ?_⟩
    intro ch
    exact ⟨doChanEnter_join_eq d now ch hm ht, by simp [joinChanUpd]⟩
  · intro hnc
    constructor
    · obtain ⟨⟨g', r⟩, hp⟩ := doEnter_total g key d now hwf
      cases r with
      | join cid =>
        obtain ⟨hm, ht, -⟩ := doEnter_join_inv hp
        exact absurd ⟨cid, hm, ht⟩ hnc
      | create cid =>
        obtain ⟨hcid, hnext, hstore, -, -, hkm, hkt, hothm, -, -⟩ := doEnter_create_inv hp
        subst hcid
        exact ⟨g', hp, hkm, hkt, by rw [hstore]; simp, hnext, hothm⟩
    · intro ch
      obtain ⟨⟨g', r⟩, hp⟩ := doChanEnter_total g key d now ch hwf
      cases r with
      | join cid =>
        obtain ⟨hm, ht, -⟩ := doChanEnter_join_inv hp
        exact absurd ⟨cid, hm, ht⟩ hnc
      | create cid =>
        obtain ⟨hcid, hnext, hstore, -, -, hkm, hkt, -, -⟩ := doChanEnter_create_inv hp
        subst hcid
        exact ⟨g', hp, hkm, hkt, by rw [hstore]; simp, hnext⟩

/-- Witness for C3: on `gOne` (call 0 registered with the sentinel expiry) a
caller joins call 0; on a zero group a caller creates call 0. -/
theorem C3_join_or_create_decision_witness :
    (doEnter gOne "k" 7 50 = some (joinUpd gOne 0, .join 0) ∧
      ((joinUpd gOne 0).store 0).dups = (gOne.store 0).dups + 1) ∧
    (∃ g' : Group Unit Unit, doEnter (Group.zero Unit Unit) "k" 7 50 = some (g', .create 0) ∧
      nlookup g'.t "k" = some (getValidTime 7 50)) := by
  constructor
  · obtain ⟨h1, -⟩ := C3_join_or_create_decision gOne "k" 7 50 (by decide)
    obtain ⟨ha, hb, -⟩ := h1 0 (by decide) (by decide)
    exact ⟨ha, hb⟩
  · obtain ⟨-, h2⟩ := C3_join_or_create_decision (Group.zero Unit Unit) "k" 7 50 (by decide)
    obtain ⟨⟨g', hp, -, hkt, -⟩, -⟩ := h2 (by rintro ⟨cid, hm, -⟩; simp [Group.zero] at hm)
    exact ⟨g', hp, hkt⟩

/-- C5: completion handling decomposes as the unlocked result write plus
completion signal (`wgDone`: `done` set with `val`/`err` finalized, registry
untouched) followed by the locked section; under the lock the registry entry
for the key is evicted iff the call was not forgotten; the Result
`(val, err, dups > 0)` is then delivered to exactly the sinks registered in
`pendingChannels`, once per registered sink, in registration order. -/
theorem C5_completion_order_and_fanout {α ε : Type} (g : Group α ε) (cid : Nat)
    (key : String) (v : Option α) (e : Option ε) :
    doCall g cid key v e = doCallLocked (wgDone g cid v e) cid key ∧
    ((wgDone g cid v e).store cid).done = true ∧
    ((wgDone g cid v e).store cid).val = v ∧
    ((wgDone g cid v e).store cid).err = e ∧
    (wgDone g cid v e).m = g.m ∧ (wgDone g cid v e).t = g.t ∧
    (nlookup (doCall g cid key v e).1.m key =
      if (g.store cid).forgotten then nlookup g.m key else none) ∧
    (nlookup (doCall g cid key v e).1.t key =
      if (g.store cid).forgotten then nlookup g.t key else none) ∧
    ((doCall g cid key v e).2.map Prod.fst = (g.store cid).chans) ∧
    (∀ p ∈ (doCall g cid key v e).2,
      p.2 = ⟨v, e, decide (0 < (g.store cid).dups)⟩) := by
  have hf : ((wgDone g cid v e).store cid).forgotten = (g.store cid).forgotten := by simp
  refine ⟨rfl, by simp, by simp, by simp, rfl, rfl, ?_, ?_, ?_, ?_⟩
  · cases hfg : (g.store cid).forgotten
    · rw [doCall, doCallLocked_fst_not_forgotten _ _ _ (hf.trans hfg)]
      simp
    · rw [doCall, doCallLocked_fst_forgotten _ _ _ (hf.trans hfg)]
      simp
  · cases hfg : (g.store cid).forgotten
    · rw [doCall, doCallLocked_fst_not_forgotten _ _ _ (hf.trans hfg)]
      simp
    · rw [doCall, doCallLocked_fst_forgotten _ _ _ (hf.trans hfg)]
      simp
  · rw [doCall, doCallLocked_snd, List.map_map]
    simp only [wgDone_store_self]
    exact List.map_id _
  · intro p hp
    rw [doCall, doCallLocked_snd] at hp
    simp at hp
    obtain ⟨ch, -, rfl⟩ := hp
    simp

/-- C4: after completion, a synchronous joiner returns exactly the finalized
value/error with `shared = true`; the originator returns the same value/error
with `shared = (dups > 0)`; every channel delivery carries the same
value/error and a true shared flag whenever at least one caller joined; each
join (`Do` or `DoChan`) increments the duplicate count, and the count never
decreases over any sequence of group transitions, so an originator's shared
flag is true exactly when some caller joined. -/
theorem C4_joiners_share_result {α ε : Type} (g : Group α ε) (cid : Nat) (key : String)
    (v : Option α) (e : Option ε) :
    joinReturn (doCall g cid key v e).1 cid = (v, e, true) ∧
    originReturn (doCall g cid key v e).1 cid =
      (v, e, decide (0 < (g.store cid).dups)) ∧
    (∀ p ∈ (doCall g cid key v e).2,
      p.2.val = v ∧ p.2.err = e ∧ (0 < (g.store cid).dups → p.2.shared = true)) ∧
    (∀ (g1 g2 : Group α ε) (k2 : String) (d2 n2 : Int) (c2 : Nat),
      doEnter g1 k2 d2 n2 = some (g2, .join c2) →
        (g2.store c2).dups = (g1.store c2).dups + 1) ∧
    (∀ (g1 g2 : Group α ε) (k2 : String) (d2 n2 : Int) (ch c2 : Nat),
      doChanEnter g1 k2 d2 n2 ch = some (g2, .join c2) →
        (g2.store c2).dups = (g1.store c2).dups + 1) ∧
    (∀ (g1 g2 : Group α ε), Relation.ReflTransGen Step g1 g2 → ∀ c2, c2 < g1.next →
      (g1.store c2).dups ≤ (g2.store c2).dups) := by
  refine ⟨?_, ?_, ?_, ?_, ?_, ?_⟩
  · rw [joinReturn, doCall]
    simp
  · rw [originReturn, doCall]
    simp
  · intro p hp
    rw [doCall, doCallLocked_snd] at hp
    simp at hp
    obtain ⟨ch, -, rfl⟩ := hp
    refine ⟨by simp, by simp, ?_⟩
    intro hd
    simpa using hd
  · intro g1 g2 k2 d2 n2 c2 h
    obtain ⟨-, -, rfl⟩ := doEnter_join_inv h
    simp [joinUpd]
  · intro g1 g2 k2 d2 n2 ch c2 h
    obtain ⟨-, -, rfl⟩ := doChanEnter_join_inv h
    simp [joinChanUpd]
  · intro g1 g2 hsteps c2 hc2
    exact (steps_dups_mono hsteps hc2).2

/-- C7: an originated call runs the supplied operation exactly once — the
instrumented completion advances the invocation counter by exactly one — and
whatever pair the operation returns is recorded verbatim and handed to the
originator, to every synchronous joiner, and to every channel sink; in
particular an error is delivered verbatim together with the absent value the
operation returned, and no error is introduced by the system itself. -/
theorem C7_operation_once_error_verbatim {α ε : Type} (g : Group α ε) (cid : Nat)
    (key : String) (fn : Nat → (Option α × Option ε) × Nat) (k : Nat)
    (hcount : ∀ j, (fn j).2 = j + 1) :
    (doCallInstr g cid key fn k).2 = k + 1 ∧
    originReturn (doCallInstr g cid key fn k).1.1 cid =
      ((fn k).1.1, (fn k).1.2, decide (0 < (g.store cid).dups)) ∧
    joinReturn (doCallInstr g cid key fn k).1.1 cid = ((fn k).1.1, (fn k).1.2, true) ∧
    (∀ p ∈ (doCallInstr g cid key fn k).1.2,
      p.2.val = (fn k).1.1 ∧ p.2.err = (fn k).1.2) := by
  refine ⟨hcount k, ?_, ?_, ?_⟩
  · rw [doCallInstr, originReturn, doCall]
    simp
  · rw [doCallInstr, joinReturn, doCall]
    simp
  · intro p hp
    rw [doCallInstr] at hp
    simp only [doCall, doCallLocked_snd] at hp
    simp at hp
    obtain ⟨ch, -, rfl⟩ := hp
    simp

/-- Witness for C7: a counting operation returning (7, no error) is invoked
exactly once by the completion of call 0 on a zero group. -/
theorem C7_operation_once_error_verbatim_witness :
    (doCallInstr (Group.zero Nat String) 0 "k"
      (fun j => ((some 7, none), j + 1)) 0).2 = 0 + 1 :=
  (C7_operation_once_error_verbatim (Group.zero Nat String) 0 "k"
    (fun j => ((some 7, none), j + 1)) 0 (fun _ => rfl)).1

/-- C8: when the registry has no entry for a key (as after a completed call's
eviction), any `Do` or `DoChan` originates a fresh call (fresh identifier,
zero duplicates, not yet completed); and symmetrically, a join can only ever
target the call currently registered under the key, so no caller joins a call
whose registry entry is gone. -/
theorem C8_evicted_key_originates_fresh {α ε : Type} (g : Group α ε) (key : String)
    (d now : Int) (hev : nlookup g.m key = none)
    (hwf : g.m.isSome = true → g.t.isSome = true) :
    (∃ g', doEnter g key d now = some (g', .create g.next) ∧
      (g'.store g.next).dups = 0 ∧ (g'.store g.next).done = false) ∧
    (∀ ch, ∃ g', doChanEnter g key d now ch = some (g', .create g.next) ∧
      (g'.store g.next).dups = 0 ∧ (g'.store g.next).done = false) ∧
    (∀ (g1 g2 : Group α ε) (k2 : String) (d2 n2 : Int) (c2 : Nat),
      doEnter g1 k2 d2 n2 = some (g2, .join c2) → nlookup g1.m k2 = some c2) ∧
    (∀ (g1 g2 : Group α ε) (k2 : String) (d2 n2 : Int) (ch c2 : Nat),
      doChanEnter g1 k2 d2 n2 ch = some (g2, .join c2) → nlookup g1.m k2 = some c2) := by
  refine ⟨?_, ?_, ?_, ?_⟩
  · obtain ⟨⟨g', r⟩, hp⟩ := doEnter_total g key d now hwf
    cases r with
    | join cid =>
      obtain ⟨hm, -, -⟩ := doEnter_join_inv hp
      rw [hev] at hm
      exact Option.noConfusion hm
    | create cid =>
      obtain ⟨hcid, -, hstore, -⟩ := doEnter_create_inv hp
      subst hcid
      exact ⟨g', hp, by rw [hstore]; simp, by rw [hstore]; simp⟩
  · intro ch
    obtain ⟨⟨g', r⟩, hp⟩ := doChanEnter_total g key d now ch hwf
    cases r with
    | join cid =>
      obtain ⟨hm, -, -⟩ := doChanEnter_join_inv hp
      rw [hev] at hm
      exact Option.noConfusion hm
    | create cid =>
      obtain ⟨hcid, -, hstore, -⟩ := doChanEnter_create_inv hp
      subst hcid
      exact ⟨g', hp, by rw [hstore]; simp, by rw [hstore]; simp⟩
  · intro g1 g2 k2 d2 n2 c2 h
    exact (doEnter_join_inv h).1
  · intro g1 g2 k2 d2 n2 ch c2 h
    exact (doChanEnter_join_inv h).1

/-- Witness for C8 on a zero group (no entry for the key). -/
theorem C8_evicted_key_originates_fresh_witness :
    ∃ g' : Group Unit Unit, doEnter (Group.zero Unit Unit) "k" 3 9 = some (g', .create 0) ∧
      (g'.store 0).dups = 0 ∧ (g'.store 0).done = false := by
  obtain ⟨h1, -, -, -⟩ := C8_evicted_key_originates_fresh (Group.zero Unit Unit) "k" 3 9
    (by decide) (by decide)
  exact h1

/-- C9: all three entry points are safe on a zero-value Group: `Do` and
`DoChan` lazily create both maps under the lock (no nil-map write, result has
both maps allocated), and `Forget` — whose only map writes are deletions,
safe on nil Go maps — is a no-op on the zero group and, more generally, on
any group with no registered call for the key it leaves the registry's
observable content unchanged. -/
theorem C9_zero_group_safety {α ε : Type} (key : String) (d now : Int) (ch : Nat) :
    (∃ p, doEnter (Group.zero α ε) key d now = some p ∧
      p.1.m.isSome = true ∧ p.1.t.isSome = true) ∧
    (∃ p, doChanEnter (Group.zero α ε) key d now ch = some p ∧
      p.1.m.isSome = true ∧ p.1.t.isSome = true) ∧
    forget (Group.zero α ε) key = Group.zero α ε ∧
    (∀ g : Group α ε, nlookup g.m key = none →
      (forget g key).store = g.store ∧ (forget g key).next = g.next ∧
      nlookup (forget g key).m key = none ∧ nlookup g.m key = none ∧
      (∀ k, k ≠ key → nlookup (forget g key).m k = nlookup g.m k ∧
        nlookup (forget g key).t k = nlookup g.t k)) := by
  refine ⟨?_, ?_, rfl, ?_⟩
  · obtain ⟨⟨g', r⟩, hp⟩ := doEnter_total (Group.zero α ε) key d now (by simp [Group.zero])
    cases r with
    | join cid =>
      obtain ⟨hm, -, -⟩ := doEnter_join_inv hp
      simp [Group.zero] at hm
    | create cid =>
      obtain ⟨-, -, -, hm2, ht2, -⟩ := doEnter_create_inv hp
      exact ⟨(g', .create cid), hp, hm2, ht2⟩
  · obtain ⟨⟨g', r⟩, hp⟩ := doChanEnter_total (Group.zero α ε) key d now ch
      (by simp [Group.zero])
    cases r with
    | join cid =>
      obtain ⟨hm, -, -⟩ := doChanEnter_join_inv hp
      simp [Group.zero] at hm
    | create cid =>
      obtain ⟨-, -, -, hm2, ht2, -⟩ := doChanEnter_create_inv hp
      exact ⟨(g', .create cid), hp, hm2, ht2⟩
  · intro g hg
    exact ⟨forget_store_of_absent hg, forget_next g key, forget_nlookup_m_self g key, hg,
      fun k hk => ⟨forget_nlookup_m_ne g hk, forget_nlookup_t_ne g hk⟩⟩

/-- C2: after `Forget(key)` the registry has no entry for the key and the
previously registered call is marked forgotten; any subsequent `Do`/`DoChan`
for the key creates a fresh call; the forgotten call's completion still
delivers its own value/error to the waiters and channels attached before the
`Forget`; and after any further sequence of group transitions the forgotten
call's completion leaves the registry maps untouched, so it never evicts an
entry installed after the `Forget`. -/
theorem C2_forget_semantics {α ε : Type} (g : Group α ε) (key : String) (cid : Nat)
    (hreg : nlookup g.m key = some cid) (ht : g.t.isSome = true) (hlt : cid < g.next) :
    nlookup (forget g key).m key = none ∧
    nlookup (forget g key).t key = none ∧
    ((forget g key).store cid).forgotten = true ∧
    (∀ d now, ∃ g2, doEnter (forget g key) key d now = some (g2, .create g.next)) ∧
    (∀ d now ch, ∃ g2, doChanEnter (forget g key) key d now ch = some (g2, .create g.next)) ∧
    (∀ v e, joinReturn (doCall (forget g key) cid key v e).1 cid = (v, e, true) ∧
      (doCall (forget g key) cid key v e).2 = (g.store cid).chans.map
        (fun ch2 => (ch2, ⟨v, e, decide (0 < (g.store cid).dups)⟩))) ∧
    (∀ h, Relation.ReflTransGen Step (forget g key) h →
      ∀ v e k2, (doCall h cid k2 v e).1.m = h.m ∧ (doCall h cid k2 v e).1.t = h.t) := by
  have hms : g.m.isSome = true := by
    cases hgm : g.m
    · rw [hgm] at hreg; simp at hreg
    · simp
  have hm1 : (forget g key).m.isSome = true := by rw [forget_m_isSome]; exact hms
  have ht1 : (forget g key).t.isSome = true := by rw [forget_t_isSome]; exact ht
  have hstf : (forget g key).store = supd g.store cid { g.store cid with forgotten := true } :=
    forget_store_of_reg hreg
  have hfg : ((forget g key).store cid).forgotten = true := by
    rw [hstf]; simp
  refine ⟨forget_nlookup_m_self g key, forget_nlookup_t_self g key, hfg, ?_, ?_, ?_, ?_⟩
  · intro d now
    obtain ⟨g2, hg2⟩ := createCall_total (g := forget g key) key d now
      ⟨none, none, false, 0, [], false⟩ hm1 ht1
    rw [forget_next] at hg2
    refine ⟨g2, ?_⟩
    simp only [doEnter]
    rw [initMaps_of_isSome hm1, forget_nlookup_m_self]
    exact hg2
  · intro d now ch
    obtain ⟨g2, hg2⟩ := createCall_total (g := forget g key) key d now
      ⟨none, none, false, 0, [ch], false⟩ hm1 ht1
    rw [forget_next] at hg2
    refine ⟨g2, ?_⟩
    simp only [doChanEnter]
    rw [initMaps_of_isSome hm1, forget_nlookup_m_self]
    exact hg2
  · intro v e
    constructor
    · rw [joinReturn, doCall]
      simp
    · rw [doCall, doCallLocked_snd]
      simp only [wgDone_store_self, hstf, supd_self]
  · intro h hsteps v e k2
    have hcid1 : cid < (forget g key).next := by rw [forget_next]; exact hlt
    have hstick := steps_forgotten_sticky hsteps hcid1 hfg
    have hfg2 : ((wgDone h cid v e).store cid).forgotten = true := by
      rw [wgDone_store_self]
      exact hstick.2
    rw [doCall, doCallLocked_fst_forgotten _ _ _ hfg2]
    exact ⟨rfl, rfl⟩

/-- Witness for C2 on `gOne` (call 0 registered under `"k"`). -/
theorem C2_forget_semantics_witness :
    nlookup (forget gOne "k").m "k" = none ∧
    ((forget gOne "k").store 0).forgotten = true ∧
    (∃ g2, doEnter (forget gOne "k") "k" 7 0 = some (g2, .create 1)) := by
  obtain ⟨h1, -, h3, h4, -⟩ := C2_forget_semantics gOne "k" 0 (by decide) (by decide)
    (by decide)
  exact ⟨h1, h3, h4 7 0⟩

/-- Witness for C5 on `gOne`: completion of call 0 sets `done` with the
finalized value before the locked section, and evicts the entry (call 0 is
not forgotten). -/
theorem C5_completion_order_and_fanout_witness :
    ((wgDone gOne 0 (some ()) none).store 0).done = true ∧
    nlookup (doCall gOne 0 "k" (some ()) none).1.m "k" = none := by
  obtain ⟨-, h2, -, -, -, -, h7, -, -, -⟩ :=
    C5_completion_order_and_fanout gOne 0 "k" (some ()) (none : Option Unit)
  refine ⟨h2, ?_⟩
  rw [h7]
  decide

/-- Witness for C4 on `gOne`: a joiner of call 0 reads the finalized value
with a true shared flag. -/
theorem C4_joiners_share_result_witness :
    joinReturn (doCall gOne 0 "k" (some ()) none).1 0 = (some (), none, true) :=
  (C4_joiners_share_result gOne 0 "k" (some ()) (none : Option Unit)).1

/-- Witness for C9: `Forget` on a zero-value group is a no-op, and `Do` on a
zero-value group succeeds. -/
theorem C9_zero_group_safety_witness :
    forget (Group.zero Unit Unit) "k" = Group.zero Unit Unit ∧
    (∃ p, doEnter (Group.zero Unit Unit) "k" 4 2 = some p ∧
      p.1.m.isSome = true ∧ p.1.t.isSome = true) := by
  obtain ⟨h1, -, h3, -⟩ := C9_zero_group_safety (α := Unit) (ε := Unit) "k" 4 2 0
  exact ⟨h3, h1⟩

end Singlecache
